import Mathlib

/-!
# Verification of the loop-route generator core

Shallow embedding of the loop-generation backend:

* `graph_manager.py` — edge-name cleanup (`_update_edge_names`),
  degree-2 merge (`_remove_node_and_merge`), biconnected pruning
  (`_prune_graph_biconnected`);
* `loop_generator.py` — turn detection (`_compare_edge_names`),
  the cost model (`weight_function_turns_dist`), the diversity filters
  (`_is_centroid_too_close`, `_is_unique_path` / `jaccard_similarity`),
  the difficulty score (`compute_difficulty`) and the loop enumerator
  (`find_paths_turns_dist`).

Python floats are modelled as `ℚ`, node ids and bitmasks as `ℕ`.
External collaborators that the source only calls (the `networkx`
biconnected-component/articulation-point algorithms, and the geodesic
sampling used by `_calculate_path_centroid`, which depends on the
`pyproj`/`shapely` geometry kit and the SRTM oracle) are passed in as
explicit oracle parameters, so every theorem below holds for all
behaviours of those collaborators.
-/

/-! ## Canonical edge names

After `_update_edge_names` an edge's `name` attribute is `None`, one
string, or a list of strings.  `NameVal.null` models the Python value
`None` stored under the key.  For edges where the attribute is missing
entirely the enumerator's `edge.get('name', [])` default behaves exactly
like `None` in `_compare_edge_names` (no element ever matches), so one
`null` constructor covers both. -/

inductive NameVal where
  | null : NameVal
  | one (s : String) : NameVal
  | many (ss : List String) : NameVal
deriving DecidableEq, Repr

/-- The list of strings a canonical name contributes to set intersection
(`set(n1)` in the source); `None` contributes nothing. -/
def NameVal.elems : NameVal → List String
  | .null => []
  | .one s => [s]
  | .many ss => ss

/-- `loop_generator._compare_edge_names`: `True` if the two names share
an element (continuation), `False` if the step is a turn.  `None` on
either side never matches. -/
def _compare_edge_names (name1 name2 : NameVal) : Bool :=
  match name1, name2 with
  | .null, _ => false
  | _, .null => false
  | n1, n2 => (n1.elems).any (fun s => decide (s ∈ n2.elems))

theorem compare_edge_names_iff (n1 n2 : NameVal) :
    _compare_edge_names n1 n2 = true ↔ ∃ s, s ∈ n1.elems ∧ s ∈ n2.elems := by
  cases n1 <;> cases n2 <;>
    simp [_compare_edge_names, NameVal.elems, List.any_eq_true]

/-! ## Edge-name cleanup (`graph_manager._update_edge_names`)

The raw OSM edge data relevant to the cleanup stage: whether a `name`
attribute is present (and its value) and whether a `ref` attribute is
present.  The stage rewrites each edge's data independently, so it is
embedded as a per-edge function mapped over the graph's edges. -/

structure RawEdgeData where
  name : Option NameVal
  ref : Option String
deriving DecidableEq, Repr

/-- Python's `str.split(sep)` for a single-character separator, over the
character list. -/
def splitOnChar (sep : Char) : List Char → List (List Char)
  | [] => [[]]
  | c :: cs =>
      let rest := splitOnChar sep cs
      if c = sep then [] :: rest
      else
        match rest with
        | [] => [[c]]
        | g :: gs => (c :: g) :: gs

/-- `ref_value.split(';')`. -/
def strSplit (s : String) (sep : Char) : List String :=
  (splitOnChar sep s.data).map (fun cs => String.mk cs)

/-- `';' in ref_value`. -/
def strContains (s : String) (c : Char) : Bool :=
  s.data.any (fun a => a == c)

/-- The value stored as the canonical name for a collected `names`
list: `None` when empty, the single string, or the list itself. -/
def canonicalName (names : List String) : NameVal :=
  match names with
  | [] => .null
  | [n] => .one n
  | ns => .many ns

/-- One edge's pass through `_update_edge_names`: build `names` from
`ref` only when `name` is absent (splitting on `;`), then store the
canonical value and delete `ref`. -/
def update_edge_name (data : RawEdgeData) : RawEdgeData :=
  let names : List String :=
    match data.name, data.ref with
    | none, some ref_value =>
        if strContains ref_value ';' then strSplit ref_value ';' else [ref_value]
    | _, _ => []
  { name := some (canonicalName names), ref := none }

/-- `_update_edge_names` over a whole graph's edge list. -/
def _update_edge_names (edges : List RawEdgeData) : List RawEdgeData :=
  edges.map update_edge_name

/-! ## The routing graph

A prepared graph is a directed multigraph with per-node coordinates and
per-edge `length`/`name`/`geometry`.  The edge list is the ground truth:
`adjData` is `G[u][v][0]`/`G.get_edge_data(u,v)` (the first stored edge
for the ordered pair) and `neighborsOf` is `G.neighbors(u)` (the
successors, in insertion order, each once). -/

structure EdgeAttr where
  length : ℚ
  name : NameVal
  geometry : Option (List (ℚ × ℚ))
deriving DecidableEq, Repr

structure MGraph where
  nodes : List (ℕ × ℚ × ℚ)
  edges : List (ℕ × ℕ × EdgeAttr)
deriving DecidableEq, Repr

/-- First stored edge for the ordered pair `(u,v)`, i.e. `G[u][v][0]`. -/
def adjData (G : MGraph) (u v : ℕ) : Option EdgeAttr :=
  (G.edges.find? (fun e => e.1 == u && e.2.1 == v)).map (fun e => e.2.2)

def hasEdge (G : MGraph) (u v : ℕ) : Bool :=
  (adjData G u v).isSome

/-- `G.neighbors(u)`: the distinct successors of `u`. -/
def neighborsOf (G : MGraph) (u : ℕ) : List ℕ :=
  (G.edges.filterMap (fun e => if e.1 = u then some e.2.1 else none)).dedup

theorem adjData_isSome_of_mem_neighborsOf {G : MGraph} {u v : ℕ}
    (h : v ∈ neighborsOf G u) : (adjData G u v).isSome := by
  rw [neighborsOf, List.mem_dedup, List.mem_filterMap] at h
  obtain ⟨e, he, hev⟩ := h
  rw [adjData]
  cases hfind : G.edges.find? (fun e' => e'.1 == u && e'.2.1 == v) with
  | none =>
      exfalso
      have hnone := List.find?_eq_none.mp hfind e he
      split at hev
      · rename_i heu
        cases hev
        simp [heu] at hnone
      · cases hev
  | some x => simp

/-! ## PathNode (`loop_generator.PathNode`)

The singly-linked search chain `{id, prev, dist}` used for path
reconstruction. -/

inductive PathNode where
  | root (id : ℕ) (dist : ℚ)
  | cons (id : ℕ) (prev : PathNode) (dist : ℚ)
deriving DecidableEq, Repr

def PathNode.id : PathNode → ℕ
  | .root i _ => i
  | .cons i _ _ => i

def PathNode.prev : PathNode → Option PathNode
  | .root _ _ => none
  | .cons _ p _ => some p

def PathNode.dist : PathNode → ℚ
  | .root _ d => d
  | .cons _ _ d => d

/-- `getattr(curr_node.prev, 'id', None)`. -/
def PathNode.prevId : PathNode → Option ℕ
  | .root _ _ => none
  | .cons _ p _ => some p.id

/-- `PathNode.traverse`: the node sequence from the start of the chain
to `self` (the source accumulates backwards and reverses). -/
def PathNode.traverse : PathNode → List ℕ
  | .root i _ => [i]
  | .cons i p _ => p.traverse ++ [i]

/-- Backward walk of `PathNode.traverse_to` over the ancestors of the
starting node: `acc` already holds the ids collected so far in forward
order (accumulating by prepending is the source's append-then-reverse).
-/
def PathNode.traverse_to_go : PathNode → ℕ → List ℕ → List ℕ × Option PathNode
  | .root i d, target, acc =>
      if i = target then (i :: acc, some (.root i d)) else ([], none)
  | .cons i p d, target, acc =>
      if i = target then (i :: acc, some (.cons i p d))
      else PathNode.traverse_to_go p target (i :: acc)

/-- `PathNode.traverse_to`: reconstructs backwards until `target_id` is
found; returns `(path_segment_to_target, node_at_target)`, or
`([], none)` when no strict ancestor has that id. -/
def PathNode.traverse_to (self : PathNode) (target_id : ℕ) : List ℕ × Option PathNode :=
  match self.prev with
  | none => ([], none)
  | some p => PathNode.traverse_to_go p target_id [self.id]

/-! ## Cost model (`weight_function_turns_dist`)

Result `none` models the `(inf, inf)` returned when the edge to the
neighbor is missing; inside the enumerator the neighbor always comes
from `G.neighbors`, so that branch is unreachable
(`adjData_isSome_of_mem_neighborsOf`). -/

def weight_function_turns_dist (G : MGraph) (u_node : PathNode) (v : ℕ)
    (current_turns : ℕ) (current_dist : ℚ) : Option (ℕ × ℚ) :=
  match adjData G u_node.id v with
  | none => none
  | some curr_edge =>
    match u_node.prev with
    | none => some (0, current_dist + curr_edge.length)
    | some prev =>
      match adjData G prev.id u_node.id with
      | none => some (current_turns, current_dist)
      | some prev_edge =>
        let new_dist := current_dist + curr_edge.length
        some (if _compare_edge_names prev_edge.name curr_edge.name
              then current_turns else current_turns + 1, new_dist)

/-! ## Diversity filters -/

/-- Population count, `bin(n).count('1')`. -/
def popCount : ℕ → ℕ
  | 0 => 0
  | n + 1 => (n + 1) % 2 + popCount ((n + 1) / 2)

/-- `jaccard_similarity` of two visited bitmasks. -/
def jaccard_similarity (set1_mask set2_mask : ℕ) : ℚ :=
  let intersection := popCount (set1_mask &&& set2_mask)
  let union := popCount (set1_mask ||| set2_mask)
  if union > 0 then (intersection : ℚ) / (union : ℚ) else 0

/-- `_is_unique_path`: no previously accepted mask is more similar than
the threshold. -/
def _is_unique_path (mask : ℕ) (existing_masks : List ℕ)
    (similarity_threshold : ℚ) : Bool :=
  existing_masks.all (fun existing =>
    !decide (jaccard_similarity mask existing > similarity_threshold))

/-- `_is_centroid_too_close`: squared distance in degrees against the
squared threshold `(min_dist_m / 111139)²`; a missing centroid is never
too close. -/
def _is_centroid_too_close (centroid : Option (ℚ × ℚ))
    (existing_centroids : List (ℚ × ℚ)) (min_dist_m : ℚ) : Bool :=
  match centroid with
  | none => false
  | some (lat, lng) =>
    let min_dist_deg := min_dist_m / 111139
    let threshold_sq := min_dist_deg * min_dist_deg
    existing_centroids.any (fun c =>
      decide ((lat - c.1) * (lat - c.1) + (lng - c.2) * (lng - c.2) < threshold_sq))

/-- The condition under which `path_to_geojson` returns a feature rather
than `None`: a nonempty path with at least one graph edge along a
consecutive pair (otherwise `line_strings` stays empty).  The geometry
itself (shapely `linemerge`) is display-only and not modelled. -/
def path_to_geojson_isSome (G : MGraph) (path : List ℕ) : Bool :=
  !path.isEmpty && (path.zip path.tail).any (fun p => hasEdge G p.1 p.2)

/-! ## Route annotation scalars -/

def MILES_PER_METER : ℚ := 621371 / 1000000000

def MIN_LOOP_LENGTH_METERS : ℚ := 500

/-- Round half to even (Python's `round`) to an integer. -/
def roundHalfEven (x : ℚ) : ℤ :=
  if x - (⌊x⌋ : ℚ) < 1 / 2 then ⌊x⌋
  else if 1 / 2 < x - (⌊x⌋ : ℚ) then ⌊x⌋ + 1
  else if ⌊x⌋ % 2 = 0 then ⌊x⌋ else ⌊x⌋ + 1

/-- Python `round(x, 1)`. -/
def round1 (x : ℚ) : ℚ :=
  (roundHalfEven (10 * x) : ℚ) / 10

/-- `compute_difficulty`: climb-rate score clamped to `[1, 10]` and
rounded to one decimal; degenerate mileage short-circuits to `1`. -/
def compute_difficulty (total_miles total_climb_ft : ℚ) : ℚ :=
  if total_miles ≤ 0 then 1
  else
    let climb_rate := total_climb_ft / total_miles
    let score := 1 + climb_rate / 200 * 9
    round1 (min (max score 1) 10)

/-! ## The loop enumerator (`find_paths_turns_dist`)

The generator is embedded as a fuel-driven state machine.  The heap is
modelled as a list from which `popMin` removes a minimal element in the
`(turns, distance, tiebreak_node_id)` order — exactly the guarantee a
binary heap provides.  The fuel is the source's own iteration cap
`MAX_ITERS = 500000`: the Python loop performs at most that many pops.

The yielded GeoJSON feature is modelled by `Route`, carrying the
acceptance-time data that `_create_properties` records (`turns`,
visited mask, loop ratio, loop and total distance, node path, centroid).
The elevation profile, climb and difficulty annotations depend on the
external SRTM oracle and do not influence acceptance, so they are not
carried. -/

structure Route where
  turns : ℕ
  dist : ℚ
  visited_mask : ℕ
  loop_ratio : ℚ
  loop_dist : ℚ
  total_dist : ℚ
  path : List ℕ
  centroid : Option (ℚ × ℚ)
deriving DecidableEq, Repr

structure Entry where
  key : ℕ × ℚ × ℕ
  node : PathNode
  mask : ℕ
deriving DecidableEq, Repr

structure SearchParams where
  min_path_length : ℚ
  max_path_length : ℚ
  loop_ratio_floor : ℚ
  similarity_ceiling : ℚ
  min_loop_length : ℚ
  deduplication : String
  min_dist_m : ℚ
deriving DecidableEq, Repr

structure SearchState where
  queue : List Entry
  path_masks : List ℕ
  existing_centroids : List (ℚ × ℚ)
  routes : List Route
  pops : ℕ
deriving DecidableEq, Repr

/-- The heap's lexicographic order on `(turns, distance, tiebreaker)`. -/
def keyLeP (a b : ℕ × ℚ × ℕ) : Prop :=
  a.1 < b.1 ∨ (a.1 = b.1 ∧ (a.2.1 < b.2.1 ∨ (a.2.1 = b.2.1 ∧ a.2.2 ≤ b.2.2)))

instance keyLeP.instDecidable (a b : ℕ × ℚ × ℕ) : Decidable (keyLeP a b) :=
  inferInstanceAs (Decidable (_ ∨ _))

/-- The cost order the emission-monotonicity claim speaks about:
lexicographic `≤` on `(turns, distance)`. -/
def costLE (a b : ℕ × ℚ) : Prop :=
  a.1 < b.1 ∨ (a.1 = b.1 ∧ a.2 ≤ b.2)

instance costLE.instDecidable (a b : ℕ × ℚ) : Decidable (costLE a b) :=
  inferInstanceAs (Decidable (_ ∨ _))

/-- `heapq.heappop`: removes a minimal entry in the key order. -/
def popMin : List Entry → Option (Entry × List Entry)
  | [] => none
  | e :: es =>
    match popMin es with
    | none => some (e, [])
    | some (m, rest) => if keyLeP e.key m.key then some (e, es) else some (m, e :: rest)

/-- The loop-candidate branch of the enumerator body (lines popping at a
node already in the visited mask): reconstruction, the acceptance
filters in source order, and feature construction.  Returns the yielded
route, or `none` for every `continue`. -/
def handleCandidate (G : MGraph) (centroidOf : List ℕ → Option (ℚ × ℚ))
    (P : SearchParams) (turns : ℕ) (dist : ℚ) (curr_node : PathNode) (visited_mask : ℕ)
    (path_masks : List ℕ) (existing_centroids : List (ℚ × ℚ)) : Option Route :=
  match curr_node.traverse_to curr_node.id with
  | (_, none) => none
  | ([], _) => none
  | (path_segment, some loop_start) =>
    let loop_dist := dist - loop_start.dist
    if loop_dist < P.min_loop_length then none
    else
      let total_dist := 2 * loop_start.dist + loop_dist
      let loop_ratio := loop_dist / total_dist
      if loop_ratio < P.loop_ratio_floor then none
      else if visited_mask ∈ path_masks then none
      else
        let path := path_segment ++ loop_start.traverse
        let centroid : Option (ℚ × ℚ) :=
          if P.deduplication = "centroid" then centroidOf path else none
        if P.deduplication = "centroid" &&
            _is_centroid_too_close centroid existing_centroids P.min_dist_m then none
        else if P.deduplication = "jaccard" &&
            !_is_unique_path visited_mask path_masks P.similarity_ceiling then none
        else if path_to_geojson_isSome G path then
          some { turns := turns, dist := dist, visited_mask := visited_mask,
                 loop_ratio := loop_ratio, loop_dist := loop_dist,
                 total_dist := total_dist, path := path, centroid := centroid }
        else none

/-- State update at a yield: record the mask, record the centroid when
one was computed (`if centroid:`), emit the route. -/
def applyYield (s : SearchState) (visited_mask : ℕ) (r : Route) : SearchState :=
  { s with
    path_masks := visited_mask :: s.path_masks,
    existing_centroids := s.existing_centroids ++ r.centroid.toList,
    routes := s.routes ++ [r] }

/-- Neighbor expansion: skip immediate backtracking, compute the new
cost, push `(key, PathNode, new_mask)`.  The `none` weight (missing
edge, `(inf, inf)` in the source) cannot occur for a `G.neighbors`
member (`adjData_isSome_of_mem_neighborsOf`), so no entry is pushed. -/
def expand (G : MGraph) (curr_node : PathNode) (visited_mask : ℕ)
    (turns : ℕ) (dist : ℚ) : List Entry :=
  let new_mask := visited_mask ||| (1 <<< curr_node.id)
  (neighborsOf G curr_node.id).filterMap (fun neighbor =>
    if curr_node.prevId = some neighbor then none
    else
      match weight_function_turns_dist G curr_node neighbor turns dist with
      | none => none
      | some (new_turns, new_dist) =>
        some { key := (new_turns, new_dist, neighbor),
               node := .cons neighbor curr_node new_dist,
               mask := new_mask })

/-- The body of one `while queue` iteration, after the pop: the
`dist > max_path_length` prune, the loop-candidate branch, or neighbor
expansion.  `e` is the popped entry and `rest` the remaining heap. -/
def stepState (G : MGraph) (centroidOf : List ℕ → Option (ℚ × ℚ))
    (P : SearchParams) (e : Entry) (rest : List Entry) (s : SearchState) : SearchState :=
  let s' : SearchState := { s with queue := rest, pops := s.pops + 1 }
  let turns := e.key.1
  let dist := e.key.2.1
  let curr_node := e.node
  let visited_mask := e.mask
  if P.max_path_length < dist then s'
  else if visited_mask &&& (1 <<< curr_node.id) ≠ 0 ∧ P.min_path_length ≤ dist then
    match handleCandidate G centroidOf P turns dist curr_node visited_mask
        s'.path_masks s'.existing_centroids with
    | some r => applyYield s' visited_mask r
    | none => s'
  else
    { s' with queue := rest ++ expand G curr_node visited_mask turns dist }

/-- One `while queue` iteration per unit of fuel; fuel exhaustion is the
`iters > MAX_ITERS` defensive break. -/
def searchLoop (G : MGraph) (centroidOf : List ℕ → Option (ℚ × ℚ))
    (P : SearchParams) : ℕ → SearchState → SearchState
  | 0, s => s
  | fuel + 1, s =>
    match popMin s.queue with
    | none => s
    | some (e, rest) => searchLoop G centroidOf P fuel (stepState G centroidOf P e rest s)

def MAX_ITERS : ℕ := 500000

/-- `find_paths_turns_dist`: the full enumeration, returning the final
search state (`routes` is the yielded stream in order, `pops` the number
of heap pops performed). -/
def find_paths_turns_dist (G : MGraph) (centroidOf : List ℕ → Option (ℚ × ℚ))
    (start_node : ℕ) (P : SearchParams) : SearchState :=
  searchLoop G centroidOf P MAX_ITERS
    { queue := [{ key := (0, 0, start_node), node := .root start_node 0,
                  mask := 0 }],
      path_masks := [], existing_centroids := [], routes := [], pops := 0 }

/-! ## Rounding bounds -/

theorem roundHalfEven_mem {x : ℚ} : roundHalfEven x = ⌊x⌋ ∨ roundHalfEven x = ⌊x⌋ + 1 := by
  unfold roundHalfEven
  split
  · exact Or.inl rfl
  · split
    · exact Or.inr rfl
    · split
      · exact Or.inl rfl
      · exact Or.inr rfl

theorem roundHalfEven_bounds {x : ℚ} {n m : ℤ} (hn : (n : ℚ) ≤ x) (hm : x ≤ (m : ℚ)) :
    n ≤ roundHalfEven x ∧ roundHalfEven x ≤ m := by
  have hfl : n ≤ ⌊x⌋ := Int.le_floor.mpr hn
  have hfu : (⌊x⌋ : ℚ) ≤ x := Int.floor_le x
  constructor
  · rcases roundHalfEven_mem (x := x) with h | h <;> omega
  · have hflm : (⌊x⌋ : ℚ) ≤ (m : ℚ) := le_trans hfu hm
    have hflm' : ⌊x⌋ ≤ m := by exact_mod_cast hflm
    unfold roundHalfEven
    split
    · exact hflm'
    · rename_i h
      push_neg at h
      have hlt : (⌊x⌋ : ℚ) + 1 / 2 ≤ x := by linarith
      have : (⌊x⌋ : ℚ) < (m : ℚ) := by linarith
      have hm' : ⌊x⌋ < m := by exact_mod_cast this
      split
      · omega
      · split <;> omega

/-- **C9.** `compute_difficulty` always lands in `[1, 10]`; for positive
mileage it is the rounded clamped climb-rate score
`round(clamp(1 + 9·(climb_ft/miles)/200, 1, 10), 1)`, and for
non-positive mileage it short-circuits to `1` (the climb rate is never
formed). -/
theorem compute_difficulty_spec (total_miles total_climb_ft : ℚ) :
    1 ≤ compute_difficulty total_miles total_climb_ft ∧
    compute_difficulty total_miles total_climb_ft ≤ 10 ∧
    (total_miles ≤ 0 → compute_difficulty total_miles total_climb_ft = 1) ∧
    (0 < total_miles →
      compute_difficulty total_miles total_climb_ft =
        round1 (min (max (1 + 9 * (total_climb_ft / total_miles) / 200) 1) 10)) := by
  have key : ∀ score : ℚ,
      1 ≤ round1 (min (max score 1) 10) ∧ round1 (min (max score 1) 10) ≤ 10 := by
    intro score
    have hc1 : (1 : ℚ) ≤ min (max score 1) 10 := le_min (le_max_right _ _) (by norm_num)
    have hc10 : min (max score 1) 10 ≤ 10 := min_le_right _ _
    have hb := roundHalfEven_bounds (x := 10 * min (max score 1) 10) (n := 10) (m := 100)
      (by push_cast; linarith) (by push_cast; linarith)
    have hb1 : (10 : ℚ) ≤ (roundHalfEven (10 * min (max score 1) 10) : ℚ) := by
      exact_mod_cast hb.1
    have hb2 : ((roundHalfEven (10 * min (max score 1) 10) : ℚ)) ≤ 100 := by
      exact_mod_cast hb.2
    unfold round1
    constructor <;> linarith
  unfold compute_difficulty
  split
  · rename_i hle
    exact ⟨le_refl 1, by norm_num, fun _ => rfl, fun h => absurd h (by linarith)⟩
  · rename_i hpos
    push_neg at hpos
    have hform : 1 + total_climb_ft / total_miles / 200 * 9
        = 1 + 9 * (total_climb_ft / total_miles) / 200 := by ring
    refine ⟨(key _).1, (key _).2, fun hle => absurd hle (by linarith), fun _ => ?_⟩
    show round1 (min (max (1 + total_climb_ft / total_miles / 200 * 9) 1) 10) = _
    rw [hform]

theorem compute_difficulty_spec_witness :
    compute_difficulty (-1) 5 = 1 ∧
    compute_difficulty 2 100 = round1 (min (max (1 + 9 * (100 / 2) / 200) 1) 10) :=
  ⟨(compute_difficulty_spec (-1) 5).2.2.1 (by norm_num),
   (compute_difficulty_spec 2 100).2.2.2 (by norm_num)⟩

/-- **C1 counterexample.** An edge that arrives with a `name` attribute
(`"Main Street"`) leaves the cleanup stage with `name = None`, not its
original name: the branch of `_update_edge_names` that would collect the
existing `name` into `names` is absent (commented out in the source), so
`len(names) == 0` stores `None` — refuting the claim that the canonical
name equals the original `name` when one was present. -/
theorem update_edge_names_drops_name :
    _update_edge_names [{ name := some (.one "Main Street"), ref := none }]
      = [{ name := some .null, ref := none }] ∧
    some NameVal.null ≠ some (NameVal.one "Main Street") := by
  exact ⟨rfl, by decide⟩

/-- **C1 (amended).** After the cleanup stage every edge has `ref`
removed and carries a canonical `name`: when `ref` was present and
`name` absent it is the `ref` value split on `;` (a single string for
one value, a list for several — `canonicalName`); in every other case
it is `None` — in particular an edge that already carried a `name`
attribute has it replaced by `None` rather than preserved. -/
theorem update_edge_names_spec (edges : List RawEdgeData) :
    _update_edge_names edges = edges.map update_edge_name ∧
    ∀ e ∈ edges,
      (update_edge_name e).ref = none ∧
      (e.name.isSome → (update_edge_name e).name = some .null) ∧
      (e.name = none → e.ref = none → (update_edge_name e).name = some .null) ∧
      (∀ r, e.name = none → e.ref = some r →
        (update_edge_name e).name =
          some (canonicalName (if strContains r ';' then strSplit r ';' else [r]))) := by
  refine ⟨rfl, fun e _ => ?_⟩
  obtain ⟨n, r⟩ := e
  refine ⟨rfl, ?_, ?_, ?_⟩
  · intro hsome
    cases n with
    | none => simp at hsome
    | some v => cases r <;> rfl
  · intro hn hr
    cases hn
    cases hr
    rfl
  · intro r' hn hr
    cases hn
    cases hr
    rfl

theorem update_edge_names_spec_witness :
    (update_edge_name { name := none, ref := some "US 19;US 129" }).name
      = some (canonicalName (if strContains "US 19;US 129" ';'
          then strSplit "US 19;US 129" ';' else ["US 19;US 129"])) ∧
    (update_edge_name { name := some (.one "Main Street"), ref := some "US 19" }).name
      = some .null :=
  ⟨(((update_edge_names_spec [RawEdgeData.mk none (some "US 19;US 129")]).2 _
      (by simp)).2.2.2) "US 19;US 129" rfl rfl,
   (((update_edge_names_spec
      [RawEdgeData.mk (some (.one "Main Street")) (some "US 19")]).2 _
      (by simp)).2.1) rfl⟩

/-- **C4.** A path extension with a real predecessor edge adds the
traversed edge's length to the distance and adds 1 to the turn count
exactly when the previous and current canonical edge names share no
element (a `None`/missing name — empty `elems` — never matches
anything), and 0 otherwise. -/
theorem weight_function_spec (G : MGraph) (u_node : PathNode) (v : ℕ)
    (turns : ℕ) (dist : ℚ) (prev : PathNode) (prev_edge curr_edge : EdgeAttr)
    (hprev : u_node.prev = some prev)
    (hpe : adjData G prev.id u_node.id = some prev_edge)
    (hce : adjData G u_node.id v = some curr_edge) :
    weight_function_turns_dist G u_node v turns dist =
      some (turns +
        (if ∃ s, s ∈ prev_edge.name.elems ∧ s ∈ curr_edge.name.elems then 0 else 1),
        dist + curr_edge.length) := by
  unfold weight_function_turns_dist
  rw [hce, hprev]
  dsimp only
  rw [hpe]
  dsimp only
  by_cases hshare : ∃ s, s ∈ prev_edge.name.elems ∧ s ∈ curr_edge.name.elems
  · have hc : _compare_edge_names prev_edge.name curr_edge.name = true :=
      (compare_edge_names_iff _ _).mpr hshare
    simp [hc, hshare]
  · have hc : _compare_edge_names prev_edge.name curr_edge.name = false := by
      rcases h : _compare_edge_names prev_edge.name curr_edge.name with _ | _
      · rfl
      · exact absurd ((compare_edge_names_iff _ _).mp h) hshare
    simp [hc, hshare]

def wAttrA : EdgeAttr := { length := 1, name := .one "A", geometry := none }

def wAttrB : EdgeAttr := { length := 2, name := .one "B", geometry := none }

def wG : MGraph := { nodes := [], edges := [(0, 1, wAttrA), (1, 2, wAttrB)] }

theorem weight_function_spec_witness :
    weight_function_turns_dist wG (.cons 1 (.root 0 0) 1) 2 0 1 =
      some (0 + (if ∃ s, s ∈ wAttrA.name.elems ∧ s ∈ wAttrB.name.elems then 0 else 1),
        1 + wAttrB.length) :=
  weight_function_spec wG (.cons 1 (.root 0 0) 1) 2 0 1 (.root 0 0) wAttrA wAttrB
    rfl rfl rfl

/-! ## C8: the iteration cap -/

theorem stepState_pops (G : MGraph) (centroidOf : List ℕ → Option (ℚ × ℚ))
    (P : SearchParams) (e : Entry) (rest : List Entry) (s : SearchState) :
    (stepState G centroidOf P e rest s).pops = s.pops + 1 := by
  unfold stepState
  dsimp only
  split
  · rfl
  · split
    · split
      · simp [applyYield]
      · rfl
    · rfl

theorem searchLoop_pops_le (G : MGraph) (centroidOf : List ℕ → Option (ℚ × ℚ))
    (P : SearchParams) :
    ∀ fuel s, (searchLoop G centroidOf P fuel s).pops ≤ s.pops + fuel := by
  intro fuel
  induction fuel with
  | zero => intro s; simp [searchLoop]
  | succ n ih =>
      intro s
      rw [searchLoop]
      cases hpop : popMin s.queue with
      | none => simp
      | some er =>
          obtain ⟨e, rest⟩ := er
          dsimp only
          have h1 := ih (stepState G centroidOf P e rest s)
          rw [stepState_pops] at h1
          omega

/-- **C8.** For every graph, centroid oracle, start node and parameter
set, `find_paths_turns_dist` performs at most `500000` heap pops — the
fuel of the search loop is the source's `MAX_ITERS` cap, so the
enumeration always terminates with whatever routes were emitted. -/
theorem find_paths_pops_le (G : MGraph) (centroidOf : List ℕ → Option (ℚ × ℚ))
    (start_node : ℕ) (P : SearchParams) :
    (find_paths_turns_dist G centroidOf start_node P).pops ≤ 500000 := by
  have h := searchLoop_pops_le G centroidOf P MAX_ITERS
    { queue := [{ key := (0, 0, start_node), node := .root start_node 0, mask := 0 }],
      path_masks := [], existing_centroids := [], routes := [], pops := 0 }
  simpa [find_paths_turns_dist, MAX_ITERS] using h

/-! ## Order facts for the heap key and the emission cost -/

def keyPair (k : ℕ × ℚ × ℕ) : ℕ × ℚ := (k.1, k.2.1)

def routeCost (r : Route) : ℕ × ℚ := (r.turns, r.dist)

theorem keyLeP_refl (a : ℕ × ℚ × ℕ) : keyLeP a a := by
  unfold keyLeP
  right
  exact ⟨rfl, Or.inr ⟨rfl, le_refl _⟩⟩

theorem keyLeP_total (a b : ℕ × ℚ × ℕ) : keyLeP a b ∨ keyLeP b a := by
  unfold keyLeP
  rcases lt_trichotomy a.1 b.1 with h | h | h
  · exact Or.inl (Or.inl h)
  · rcases lt_trichotomy a.2.1 b.2.1 with h2 | h2 | h2
    · exact Or.inl (Or.inr ⟨h, Or.inl h2⟩)
    · rcases le_total a.2.2 b.2.2 with h3 | h3
      · exact Or.inl (Or.inr ⟨h, Or.inr ⟨h2, h3⟩⟩)
      · exact Or.inr (Or.inr ⟨h.symm, Or.inr ⟨h2.symm, h3⟩⟩)
    · exact Or.inr (Or.inr ⟨h.symm, Or.inl h2⟩)
  · exact Or.inr (Or.inl h)

theorem keyLeP_trans {a b c : ℕ × ℚ × ℕ} (h1 : keyLeP a b) (h2 : keyLeP b c) :
    keyLeP a c := by
  unfold keyLeP at h1 h2 ⊢
  rcases h1 with h1 | ⟨e1, h1⟩
  · rcases h2 with h2 | ⟨e2, _⟩
    · exact Or.inl (lt_trans h1 h2)
    · exact Or.inl (e2 ▸ h1)
  · rcases h2 with h2 | ⟨e2, h2⟩
    · exact Or.inl (e1 ▸ h2)
    · refine Or.inr ⟨e1.trans e2, ?_⟩
      rcases h1 with h1 | ⟨f1, h1⟩
      · rcases h2 with h2 | ⟨f2, _⟩
        · exact Or.inl (lt_trans h1 h2)
        · exact Or.inl (f2 ▸ h1)
      · rcases h2 with h2 | ⟨f2, h2⟩
        · exact Or.inl (f1 ▸ h2)
        · exact Or.inr ⟨f1.trans f2, le_trans h1 h2⟩

theorem costLE_refl (a : ℕ × ℚ) : costLE a a := Or.inr ⟨rfl, le_refl _⟩

theorem costLE_trans {a b c : ℕ × ℚ} (h1 : costLE a b) (h2 : costLE b c) :
    costLE a c := by
  unfold costLE at h1 h2 ⊢
  rcases h1 with h1 | ⟨e1, h1⟩
  · rcases h2 with h2 | ⟨e2, _⟩
    · exact Or.inl (lt_trans h1 h2)
    · exact Or.inl (e2 ▸ h1)
  · rcases h2 with h2 | ⟨e2, h2⟩
    · exact Or.inl (e1 ▸ h2)
    · exact Or.inr ⟨e1.trans e2, le_trans h1 h2⟩

theorem keyLeP_costLE {a b : ℕ × ℚ × ℕ} (h : keyLeP a b) :
    costLE (keyPair a) (keyPair b) := by
  unfold keyLeP at h
  unfold costLE keyPair
  rcases h with h | ⟨e, h⟩
  · exact Or.inl h
  · rcases h with h | ⟨f, _⟩
    · exact Or.inr ⟨e, le_of_lt h⟩
    · exact Or.inr ⟨e, le_of_eq f⟩

/-! ## popMin: the heap pops a minimal element -/

theorem popMin_cons (e : Entry) (es : List Entry) :
    popMin (e :: es) = match popMin es with
      | none => some (e, [])
      | some (m, rest) =>
          if keyLeP e.key m.key then some (e, es) else some (m, e :: rest) := rfl

theorem popMin_eq_none_iff {l : List Entry} : popMin l = none ↔ l = [] := by
  cases l with
  | nil => simp [popMin]
  | cons e es =>
      rw [popMin_cons]
      constructor
      · intro h
        cases hes : popMin es with
        | none => rw [hes] at h; simp at h
        | some p =>
            obtain ⟨m, rest⟩ := p
            rw [hes] at h
            dsimp only at h
            split at h <;> simp at h
      · intro h
        simp at h

theorem popMin_perm {l : List Entry} {m : Entry} {rest : List Entry}
    (h : popMin l = some (m, rest)) : l.Perm (m :: rest) := by
  induction l generalizing m rest with
  | nil => simp [popMin] at h
  | cons e es ih =>
      rw [popMin_cons] at h
      cases hes : popMin es with
      | none =>
          rw [hes] at h
          simp only [Option.some.injEq, Prod.mk.injEq] at h
          obtain ⟨hm, hr⟩ := h
          have hnil : es = [] := popMin_eq_none_iff.mp hes
          subst hnil
          rw [← hm, ← hr]
      | some p =>
          obtain ⟨m2, rest2⟩ := p
          rw [hes] at h
          dsimp only at h
          split at h
          · simp only [Option.some.injEq, Prod.mk.injEq] at h
            obtain ⟨hm, hr⟩ := h
            rw [← hm, ← hr]
          · simp only [Option.some.injEq, Prod.mk.injEq] at h
            obtain ⟨hm, hr⟩ := h
            rw [← hm, ← hr]
            exact ((ih hes).cons e).trans (List.Perm.swap _ _ _)

theorem popMin_min {l : List Entry} {m : Entry} {rest : List Entry}
    (h : popMin l = some (m, rest)) : ∀ x ∈ l, keyLeP m.key x.key := by
  induction l generalizing m rest with
  | nil => simp [popMin] at h
  | cons e es ih =>
      rw [popMin_cons] at h
      cases hes : popMin es with
      | none =>
          rw [hes] at h
          simp only [Option.some.injEq, Prod.mk.injEq] at h
          obtain ⟨hm, hr⟩ := h
          have hnil : es = [] := popMin_eq_none_iff.mp hes
          subst hnil
          intro x hx
          rcases List.mem_singleton.mp hx with rfl
          rw [← hm]
          exact keyLeP_refl _
      | some p =>
          obtain ⟨m2, rest2⟩ := p
          rw [hes] at h
          dsimp only at h
          split at h
          · rename_i hle
            simp only [Option.some.injEq, Prod.mk.injEq] at h
            obtain ⟨hm, hr⟩ := h
            intro x hx
            rcases List.mem_cons.mp hx with hxe | hx
            · rw [← hm, hxe]
              exact keyLeP_refl _
            · rw [← hm]
              exact keyLeP_trans hle (ih hes x hx)
          · rename_i hnle
            simp only [Option.some.injEq, Prod.mk.injEq] at h
            obtain ⟨hm, hr⟩ := h
            intro x hx
            rcases List.mem_cons.mp hx with hxe | hx
            · rw [← hm, hxe]
              rcases keyLeP_total e.key m2.key with h2 | h2
              · exact absurd h2 hnle
              · exact h2
            · rw [← hm]
              exact ih hes x hx

/-! ## Facts about expansion -/

theorem adjData_mem {G : MGraph} {u v : ℕ} {a : EdgeAttr}
    (h : adjData G u v = some a) : ∃ e ∈ G.edges, e.2.2 = a := by
  unfold adjData at h
  cases hf : G.edges.find? (fun e => e.1 == u && e.2.1 == v) with
  | none => rw [hf] at h; simp at h
  | some e =>
      rw [hf] at h
      simp only [Option.map_some', Option.some.injEq] at h
      exact ⟨e, List.mem_of_find?_eq_some hf, h⟩

theorem weight_key_ge {G : MGraph} {curr : PathNode} {v : ℕ} {turns : ℕ} {dist : ℚ}
    {nt : ℕ} {nd : ℚ}
    (hlen : ∀ e ∈ G.edges, 0 ≤ e.2.2.length)
    (hroot : curr.prev = none → turns = 0)
    (hw : weight_function_turns_dist G curr v turns dist = some (nt, nd)) :
    costLE (turns, dist) (nt, nd) := by
  unfold weight_function_turns_dist at hw
  cases hce : adjData G curr.id v with
  | none => rw [hce] at hw; simp at hw
  | some ce =>
      rw [hce] at hw
      dsimp only at hw
      have hlce : 0 ≤ ce.length := by
        obtain ⟨e, he, hea⟩ := adjData_mem hce
        rw [← hea]
        exact hlen e he
      cases hprev : curr.prev with
      | none =>
          rw [hprev] at hw
          dsimp only at hw
          simp only [Option.some.injEq, Prod.mk.injEq] at hw
          obtain ⟨hnt, hnd⟩ := hw
          have ht0 : turns = 0 := hroot hprev
          exact Or.inr ⟨show turns = nt by omega, show dist ≤ nd by rw [← hnd]; linarith⟩
      | some p =>
          rw [hprev] at hw
          dsimp only at hw
          cases hpe : adjData G p.id curr.id with
          | none =>
              rw [hpe] at hw
              dsimp only at hw
              simp only [Option.some.injEq, Prod.mk.injEq] at hw
              obtain ⟨hnt, hnd⟩ := hw
              exact Or.inr ⟨show turns = nt by omega, show dist ≤ nd by rw [← hnd]⟩
          | some pe =>
              rw [hpe] at hw
              dsimp only at hw
              simp only [Option.some.injEq, Prod.mk.injEq] at hw
              obtain ⟨hnt, hnd⟩ := hw
              rcases hc : _compare_edge_names pe.name ce.name with _ | _ <;>
                  rw [hc] at hnt <;> simp at hnt
              · exact Or.inl (show turns < nt by omega)
              · exact Or.inr ⟨show turns = nt by omega,
                  show dist ≤ nd by rw [← hnd]; linarith⟩

theorem mem_expand {G : MGraph} {curr : PathNode} {mask turns : ℕ} {dist : ℚ} {p : Entry}
    (hp : p ∈ expand G curr mask turns dist) :
    ∃ v nt nd, v ∈ neighborsOf G curr.id ∧
      weight_function_turns_dist G curr v turns dist = some (nt, nd) ∧
      p = { key := (nt, nd, v), node := .cons v curr nd,
            mask := mask ||| (1 <<< curr.id) } := by
  unfold expand at hp
  rw [List.mem_filterMap] at hp
  obtain ⟨v, hv, hpv⟩ := hp
  split at hpv
  · exact absurd hpv (by simp)
  · cases hw : weight_function_turns_dist G curr v turns dist with
    | none => rw [hw] at hpv; simp at hpv
    | some q =>
        obtain ⟨nt, nd⟩ := q
        rw [hw] at hpv
        dsimp only at hpv
        simp only [Option.some.injEq] at hpv
        exact ⟨v, nt, nd, hv, hw, hpv.symm⟩

/-! ## Loop reconstruction facts -/

theorem traverse_to_go_some {p : PathNode} {target : ℕ} {acc l : List ℕ} {L : PathNode}
    (h : PathNode.traverse_to_go p target acc = (l, some L)) :
    L.id = target ∧ ∃ tail, l = target :: tail := by
  induction p generalizing acc with
  | root i d =>
      rw [PathNode.traverse_to_go] at h
      split at h
      · rename_i hit
        simp only [Prod.mk.injEq, Option.some.injEq] at h
        obtain ⟨hl, hL⟩ := h
        subst hit
        exact ⟨by rw [← hL]; rfl, acc, hl.symm⟩
      · simp at h
  | cons i p d ih =>
      rw [PathNode.traverse_to_go] at h
      split at h
      · rename_i hit
        simp only [Prod.mk.injEq, Option.some.injEq] at h
        obtain ⟨hl, hL⟩ := h
        subst hit
        exact ⟨by rw [← hL]; rfl, acc, hl.symm⟩
      · exact ih h

/-! ## Acceptance postconditions of the candidate branch -/

theorem handleCandidate_some {G : MGraph} {co : List ℕ → Option (ℚ × ℚ)}
    {P : SearchParams} {turns : ℕ} {dist : ℚ} {curr : PathNode} {mask : ℕ}
    {masks : List ℕ} {cents : List (ℚ × ℚ)} {r : Route}
    (h : handleCandidate G co P turns dist curr mask masks cents = some r) :
    r.turns = turns ∧ r.dist = dist ∧ r.visited_mask = mask ∧
    mask ∉ masks ∧
    P.min_loop_length ≤ r.loop_dist ∧
    P.loop_ratio_floor ≤ r.loop_ratio ∧
    r.loop_ratio = r.loop_dist / r.total_dist ∧
    path_to_geojson_isSome G r.path = true ∧
    (∃ seg L, curr.traverse_to curr.id = (seg, some L) ∧
      r.loop_dist = dist - L.dist ∧
      r.total_dist = 2 * L.dist + r.loop_dist ∧
      r.path = seg ++ L.traverse ∧
      r.path.headI = curr.id) ∧
    (P.deduplication = "centroid" →
      r.centroid = co r.path ∧
      _is_centroid_too_close r.centroid cents P.min_dist_m = false) ∧
    (P.deduplication ≠ "centroid" → r.centroid = none) := by
  unfold handleCandidate at h
  cases hts : curr.traverse_to curr.id with
  | mk seg Lopt =>
      rw [hts] at h
      cases Lopt with
      | none => simp at h
      | some L =>
          cases seg with
          | nil => simp at h
          | cons a tail =>
              have hhead : a = curr.id := by
                have hts2 := hts
                rw [PathNode.traverse_to] at hts2
                cases hp : curr.prev with
                | none => rw [hp] at hts2; simp at hts2
                | some pp =>
                    rw [hp] at hts2
                    obtain ⟨_, tail2, hseg⟩ := traverse_to_go_some hts2
                    exact (List.cons.injEq _ _ _ _ ▸ hseg).1
              dsimp only at h
              split at h
              · simp at h
              · rename_i hld
                push_neg at hld
                split at h
                · simp at h
                · rename_i hlr
                  push_neg at hlr
                  split at h
                  · simp at h
                  · rename_i hmask
                    by_cases hdedup : P.deduplication = "centroid"
                    · have hd : decide (P.deduplication = "centroid") = true :=
                        decide_eq_true hdedup
                      rw [if_pos hdedup, hd, Bool.true_and] at h
                      split at h
                      · simp at h
                      · rename_i hclose
                        have hj : decide (P.deduplication = "jaccard") = false :=
                          decide_eq_false (by rw [hdedup]; simp)
                        rw [hj, Bool.false_and] at h
                        rw [if_neg (show ¬((false : Bool) = true) by decide)] at h
                        split at h
                        · rename_i hgeo
                          simp only [Option.some.injEq] at h
                          subst h
                          refine ⟨rfl, rfl, rfl, hmask, hld, hlr, rfl, hgeo,
                            ⟨a :: tail, L, rfl, rfl, rfl, rfl, by simp [hhead]⟩,
                            fun _ => ⟨rfl, by simpa using hclose⟩,
                            fun hne => absurd hdedup hne⟩
                        · simp at h
                    · have hd : decide (P.deduplication = "centroid") = false :=
                        decide_eq_false hdedup
                      rw [if_neg hdedup, hd, Bool.false_and] at h
                      rw [if_neg (show ¬((false : Bool) = true) by decide)] at h
                      split at h
                      · simp at h
                      · rename_i hjac
                        split at h
                        · rename_i hgeo
                          simp only [Option.some.injEq] at h
                          subst h
                          refine ⟨rfl, rfl, rfl, hmask, hld, hlr, rfl, hgeo,
                            ⟨a :: tail, L, rfl, rfl, rfl, rfl, by simp [hhead]⟩,
                            fun hc => absurd hc hdedup,
                            fun _ => rfl⟩
                        · simp at h

/-! ## The search invariant -/

/-- The acceptance postcondition carried by every yielded route
(claim C3's content, over the fields the route records). -/
def RoutePost (P : SearchParams) (r : Route) : Prop :=
  P.min_path_length ≤ r.dist ∧
  r.visited_mask &&& (1 <<< r.path.headI) ≠ 0 ∧
  P.min_loop_length ≤ r.loop_dist ∧
  r.total_dist = 2 * r.dist - r.loop_dist ∧
  r.loop_ratio = r.loop_dist / r.total_dist ∧
  P.loop_ratio_floor ≤ r.loop_ratio

/-- Two routes are far apart in the degree approximation: whenever both
carry centroids, the squared centroid distance scaled by `111139 m/°`
is at least `min_dist_m` squared. -/
def CentroidFar (min_dist_m : ℚ) (r1 r2 : Route) : Prop :=
  ∀ c1 c2, r1.centroid = some c1 → r2.centroid = some c2 →
    min_dist_m * min_dist_m ≤
      111139 * 111139 *
        ((c1.1 - c2.1) * (c1.1 - c2.1) + (c1.2 - c2.2) * (c1.2 - c2.2))

theorem too_close_false_far {c : ℚ × ℚ} {cents : List (ℚ × ℚ)} {md : ℚ}
    (h : _is_centroid_too_close (some c) cents md = false) :
    ∀ ex ∈ cents, md * md ≤ 111139 * 111139 *
      ((c.1 - ex.1) * (c.1 - ex.1) + (c.2 - ex.2) * (c.2 - ex.2)) := by
  intro ex hex
  obtain ⟨lat, lng⟩ := c
  unfold _is_centroid_too_close at h
  dsimp only at h
  rw [List.any_eq_false] at h
  have h2 := h ex hex
  rw [decide_eq_true_eq] at h2
  push_neg at h2
  have h3 : md / 111139 * (md / 111139) ≤
      (lat - ex.1) * (lat - ex.1) + (lng - ex.2) * (lng - ex.2) := h2
  have h4 := mul_le_mul_of_nonneg_left h3
    (show (0 : ℚ) ≤ 111139 * 111139 by norm_num)
  have h5 : 111139 * 111139 * (md / 111139 * (md / 111139)) = md * md := by
    field_simp
  rw [h5] at h4
  exact h4

/-- The invariant maintained by the enumerator loop: `B` is the cost of
the last pop; queue keys dominate `B`, only a chain root can carry zero
turns, and the emitted routes are cost-sorted, postcondition-satisfying,
mask-distinct, recorded in `path_masks`, pairwise centroid-far, and
centroid-recorded in `existing_centroids`. -/
def SearchInv (P : SearchParams) (s : SearchState) (B : ℕ × ℚ) : Prop :=
  (∀ p ∈ s.queue, costLE B (keyPair p.key)) ∧
  (∀ p ∈ s.queue, p.node.prev = none → p.key.1 = 0) ∧
  (∀ r ∈ s.routes, costLE (routeCost r) B) ∧
  List.Chain' costLE (s.routes.map routeCost) ∧
  (∀ r ∈ s.routes, RoutePost P r) ∧
  (s.routes.map Route.visited_mask).Nodup ∧
  (∀ r ∈ s.routes, r.visited_mask ∈ s.path_masks) ∧
  List.Pairwise (CentroidFar P.min_dist_m) s.routes ∧
  (∀ r ∈ s.routes, ∀ c, r.centroid = some c → c ∈ s.existing_centroids)

theorem mem_of_getLast?_eq_some {α : Type} {l : List α} {a : α}
    (h : l.getLast? = some a) : a ∈ l := by
  induction l with
  | nil => simp at h
  | cons x xs ih =>
      cases xs with
      | nil =>
          simp only [List.getLast?_singleton, Option.some.injEq] at h
          simp [h]
      | cons y ys =>
          rw [List.getLast?_cons_cons] at h
          exact List.mem_cons_of_mem _ (ih h)

theorem stepState_inv {G : MGraph} {co : List ℕ → Option (ℚ × ℚ)} {P : SearchParams}
    {e : Entry} {rest : List Entry} {s : SearchState} {B : ℕ × ℚ}
    (hlen : ∀ ed ∈ G.edges, 0 ≤ ed.2.2.length)
    (hpop : popMin s.queue = some (e, rest))
    (hinv : SearchInv P s B) :
    SearchInv P (stepState G co P e rest s) (keyPair e.key) := by
  obtain ⟨hQ1, hQ2, hR2, hR1, hR3, hR4, hR5, hR6, hR7⟩ := hinv
  have hperm := popMin_perm hpop
  have heq : e ∈ s.queue := hperm.mem_iff.mpr (List.mem_cons_self e rest)
  have hrest : ∀ p ∈ rest, p ∈ s.queue := fun p hp =>
    hperm.mem_iff.mpr (List.mem_cons_of_mem _ hp)
  have hBB : costLE B (keyPair e.key) := hQ1 e heq
  have hrestB : ∀ p ∈ rest, costLE (keyPair e.key) (keyPair p.key) := fun p hp =>
    keyLeP_costLE (popMin_min hpop p (hrest p hp))
  have hroutesB : ∀ r ∈ s.routes, costLE (routeCost r) (keyPair e.key) := fun r hr =>
    costLE_trans (hR2 r hr) hBB
  unfold stepState
  dsimp only
  split
  · exact ⟨hrestB, fun p hp => hQ2 p (hrest p hp), hroutesB, hR1, hR3, hR4, hR5, hR6, hR7⟩
  · split
    · rename_i hcand
      cases hc : handleCandidate G co P e.key.1 e.key.2.1 e.node e.mask
          s.path_masks s.existing_centroids with
      | none =>
          exact ⟨hrestB, fun p hp => hQ2 p (hrest p hp), hroutesB, hR1, hR3, hR4, hR5,
            hR6, hR7⟩
      | some r =>
          obtain ⟨hrt, hrd, hrm, hmask, hml, hratio, hratiodef, hgeo,
            ⟨seg, L, hts, hld, htd, hpath, hhead⟩, hcen, hncen⟩ :=
            handleCandidate_some hc
          have hrc : routeCost r = keyPair e.key := by
            unfold routeCost keyPair
            rw [hrt, hrd]
          unfold applyYield
          dsimp only
          refine ⟨hrestB, fun p hp => hQ2 p (hrest p hp), ?_, ?_, ?_, ?_, ?_, ?_, ?_⟩
          · intro r' hr'
            rcases List.mem_append.mp hr' with hr' | hr'
            · exact hroutesB r' hr'
            · rw [List.mem_singleton.mp hr', hrc]
              exact costLE_refl _
          · rw [List.map_append]
            rw [List.chain'_append]
            refine ⟨hR1, by simp, ?_⟩
            intro x hx y hy
            simp only [List.map_cons, List.map_nil, List.head?_cons,
              Option.mem_def, Option.some.injEq] at hy
            have hx2 : x ∈ s.routes.map routeCost := by
              cases hgl : (s.routes.map routeCost).getLast? with
              | none => rw [hgl] at hx; simp at hx
              | some z =>
                  rw [hgl] at hx
                  simp only [Option.mem_def, Option.some.injEq] at hx
                  subst hx
                  exact mem_of_getLast?_eq_some hgl
            obtain ⟨r', hr', hxc⟩ := List.mem_map.mp hx2
            rw [← hy, ← hxc, hrc]
            exact hroutesB r' hr'
          · intro r' hr'
            rcases List.mem_append.mp hr' with hr' | hr'
            · exact hR3 r' hr'
            · rw [List.mem_singleton.mp hr']
              rcases hcand with ⟨hbit, hmin⟩
              refine ⟨by rw [hrd]; exact hmin, ?_, hml, ?_, hratiodef, hratio⟩
              · rw [hrm, hhead]
                exact hbit
              · rw [htd, hld, hrd]
                ring
          · rw [List.map_append]
            refine List.Nodup.append hR4 (by simp) ?_
            intro a ha hb
            simp only [List.map_cons, List.map_nil, List.mem_singleton] at hb
            subst hb
            obtain ⟨r', hr', hmr'⟩ := List.mem_map.mp ha
            exact hmask (hrm ▸ hmr' ▸ hR5 r' hr')
          · intro r' hr'
            rcases List.mem_append.mp hr' with hr' | hr'
            · exact List.mem_cons_of_mem _ (hR5 r' hr')
            · rw [List.mem_singleton.mp hr', hrm]
              exact List.mem_cons_self _ _
          · rw [List.pairwise_append]
            refine ⟨hR6, by simp, ?_⟩
            intro a ha b hb
            rw [List.mem_singleton.mp hb]
            intro c1 c2 hac1 hbc2
            by_cases hdedup : P.deduplication = "centroid"
            · obtain ⟨hrcen, hclose⟩ := hcen hdedup
              rw [hbc2] at hclose
              have hfar := too_close_false_far hclose c1 (hR7 a ha c1 hac1)
              have heq2 : 111139 * 111139 *
                  ((c2.1 - c1.1) * (c2.1 - c1.1) + (c2.2 - c1.2) * (c2.2 - c1.2)) =
                  111139 * 111139 *
                  ((c1.1 - c2.1) * (c1.1 - c2.1) + (c1.2 - c2.2) * (c1.2 - c2.2)) := by
                ring
              rw [heq2] at hfar
              exact hfar
            · rw [hncen hdedup] at hbc2
              simp at hbc2
          · intro r' hr' c hc'
            rcases List.mem_append.mp hr' with hr' | hr'
            · exact List.mem_append_left _ (hR7 r' hr' c hc')
            · rw [List.mem_singleton.mp hr'] at hc'
              refine List.mem_append_right _ ?_
              rw [hc']
              simp
    · rename_i hncand
      refine ⟨?_, ?_, hroutesB, hR1, hR3, hR4, hR5, hR6, hR7⟩
      · intro p hp
        rcases List.mem_append.mp hp with hp | hp
        · exact hrestB p hp
        · obtain ⟨v, nt, nd, hv, hw, hpv⟩ := mem_expand hp
          rw [hpv]
          exact weight_key_ge hlen (hQ2 e heq) hw
      · intro p hp
        rcases List.mem_append.mp hp with hp | hp
        · exact hQ2 p (hrest p hp)
        · obtain ⟨v, nt, nd, hv, hw, hpv⟩ := mem_expand hp
          rw [hpv]
          intro habs
          simp [PathNode.prev] at habs

/-- The part of the invariant about emitted routes only; it needs no
assumption on the graph. -/
def YieldInv (P : SearchParams) (s : SearchState) : Prop :=
  (∀ r ∈ s.routes, RoutePost P r) ∧
  (s.routes.map Route.visited_mask).Nodup ∧
  (∀ r ∈ s.routes, r.visited_mask ∈ s.path_masks) ∧
  List.Pairwise (CentroidFar P.min_dist_m) s.routes ∧
  (∀ r ∈ s.routes, ∀ c, r.centroid = some c → c ∈ s.existing_centroids)

theorem stepState_yield_inv {G : MGraph} {co : List ℕ → Option (ℚ × ℚ)}
    {P : SearchParams} {e : Entry} {rest : List Entry} {s : SearchState}
    (hinv : YieldInv P s) :
    YieldInv P (stepState G co P e rest s) := by
  obtain ⟨hR3, hR4, hR5, hR6, hR7⟩ := hinv
  unfold stepState
  dsimp only
  split
  · exact ⟨hR3, hR4, hR5, hR6, hR7⟩
  · split
    · rename_i hcand
      cases hc : handleCandidate G co P e.key.1 e.key.2.1 e.node e.mask
          s.path_masks s.existing_centroids with
      | none => exact ⟨hR3, hR4, hR5, hR6, hR7⟩
      | some r =>
          obtain ⟨hrt, hrd, hrm, hmask, hml, hratio, hratiodef, hgeo,
            ⟨seg, L, hts, hld, htd, hpath, hhead⟩, hcen, hncen⟩ :=
            handleCandidate_some hc
          unfold applyYield
          dsimp only
          refine ⟨?_, ?_, ?_, ?_, ?_⟩
          · intro r' hr'
            rcases List.mem_append.mp hr' with hr' | hr'
            · exact hR3 r' hr'
            · rw [List.mem_singleton.mp hr']
              rcases hcand with ⟨hbit, hmin⟩
              refine ⟨by rw [hrd]; exact hmin, ?_, hml, ?_, hratiodef, hratio⟩
              · rw [hrm, hhead]
                exact hbit
              · rw [htd, hld, hrd]
                ring
          · rw [List.map_append]
            refine List.Nodup.append hR4 (by simp) ?_
            intro a ha hb
            simp only [List.map_cons, List.map_nil, List.mem_singleton] at hb
            subst hb
            obtain ⟨r', hr', hmr'⟩ := List.mem_map.mp ha
            exact hmask (hrm ▸ hmr' ▸ hR5 r' hr')
          · intro r' hr'
            rcases List.mem_append.mp hr' with hr' | hr'
            · exact List.mem_cons_of_mem _ (hR5 r' hr')
            · rw [List.mem_singleton.mp hr', hrm]
              exact List.mem_cons_self _ _
          · rw [List.pairwise_append]
            refine ⟨hR6, by simp, ?_⟩
            intro a ha b hb
            rw [List.mem_singleton.mp hb]
            intro c1 c2 hac1 hbc2
            by_cases hdedup : P.deduplication = "centroid"
            · obtain ⟨hrcen, hclose⟩ := hcen hdedup
              rw [hbc2] at hclose
              have hfar := too_close_false_far hclose c1 (hR7 a ha c1 hac1)
              have heq2 : 111139 * 111139 *
                  ((c2.1 - c1.1) * (c2.1 - c1.1) + (c2.2 - c1.2) * (c2.2 - c1.2)) =
                  111139 * 111139 *
                  ((c1.1 - c2.1) * (c1.1 - c2.1) + (c1.2 - c2.2) * (c1.2 - c2.2)) := by
                ring
              rw [heq2] at hfar
              exact hfar
            · rw [hncen hdedup] at hbc2
              simp at hbc2
          · intro r' hr' c hc'
            rcases List.mem_append.mp hr' with hr' | hr'
            · exact List.mem_append_left _ (hR7 r' hr' c hc')
            · rw [List.mem_singleton.mp hr'] at hc'
              refine List.mem_append_right _ ?_
              rw [hc']
              simp
    · exact ⟨hR3, hR4, hR5, hR6, hR7⟩

theorem searchLoop_yield_inv (G : MGraph) (co : List ℕ → Option (ℚ × ℚ))
    (P : SearchParams) :
    ∀ fuel s, YieldInv P s → YieldInv P (searchLoop G co P fuel s) := by
  intro fuel
  induction fuel with
  | zero => intro s h; exact h
  | succ n ih =>
      intro s h
      rw [searchLoop]
      cases hpop : popMin s.queue with
      | none => exact h
      | some er =>
          obtain ⟨e, rest⟩ := er
          dsimp only
          exact ih _ (stepState_yield_inv h)

theorem searchLoop_inv (G : MGraph) (co : List ℕ → Option (ℚ × ℚ))
    (P : SearchParams) (hlen : ∀ ed ∈ G.edges, 0 ≤ ed.2.2.length) :
    ∀ fuel s B, SearchInv P s B →
      ∃ B2, SearchInv P (searchLoop G co P fuel s) B2 := by
  intro fuel
  induction fuel with
  | zero => intro s B h; exact ⟨B, h⟩
  | succ n ih =>
      intro s B h
      rw [searchLoop]
      cases hpop : popMin s.queue with
      | none => exact ⟨B, h⟩
      | some er =>
          obtain ⟨e, rest⟩ := er
          dsimp only
          exact ih _ _ (stepState_inv hlen hpop h)

theorem find_paths_yield_inv (G : MGraph) (co : List ℕ → Option (ℚ × ℚ))
    (start_node : ℕ) (P : SearchParams) :
    YieldInv P (find_paths_turns_dist G co start_node P) := by
  apply searchLoop_yield_inv
  exact ⟨by simp, by simp, by simp, by simp, by simp⟩

/-! ## Witness fixtures: a bow-tie graph (two unit triangles joined at
node 0), null edge names, and a centroid oracle keyed on the second
path node. -/

def bowAttr : EdgeAttr := { length := 1, name := .null, geometry := none }

def bowG : MGraph :=
  { nodes := [],
    edges := [(0, 1, bowAttr), (1, 0, bowAttr), (1, 2, bowAttr), (2, 1, bowAttr),
              (2, 0, bowAttr), (0, 2, bowAttr), (0, 3, bowAttr), (3, 0, bowAttr),
              (3, 4, bowAttr), (4, 3, bowAttr), (4, 0, bowAttr), (0, 4, bowAttr)] }

def bowP : SearchParams :=
  { min_path_length := 2, max_path_length := 4, loop_ratio_floor := 1 / 2,
    similarity_ceiling := 7 / 10, min_loop_length := 1,
    deduplication := "centroid", min_dist_m := 50 }

def bowCo : List ℕ → Option (ℚ × ℚ) := fun p => some ((p.tail.headI : ℚ), 0)

attribute [local semireducible] Rat.add Rat.sub Rat.mul Rat.inv

/-- **C2.** With non-negative edge lengths (as geodesic lengths are),
the routes yielded by `find_paths_turns_dist` stream out in
non-decreasing lexicographic `(turns, distance)` order: the heap pops
minima of `(turns, distance, tiebreaker)` and every extension's cost
dominates the cost of the entry it extends. -/
theorem find_paths_monotone (G : MGraph) (centroidOf : List ℕ → Option (ℚ × ℚ))
    (start_node : ℕ) (P : SearchParams)
    (hlen : ∀ e ∈ G.edges, 0 ≤ e.2.2.length) :
    List.Chain' costLE
      ((find_paths_turns_dist G centroidOf start_node P).routes.map routeCost) := by
  have hinit : SearchInv P
      { queue := [{ key := (0, 0, start_node), node := .root start_node 0, mask := 0 }],
        path_masks := [], existing_centroids := [], routes := [], pops := 0 } (0, 0) := by
    refine ⟨?_, ?_, by simp, by simp, by simp, by simp, by simp, by simp, by simp⟩
    · intro p hp
      rw [List.mem_singleton.mp hp]
      exact costLE_refl _
    · intro p hp _
      rw [List.mem_singleton.mp hp]
  obtain ⟨B2, hinv⟩ := searchLoop_inv G centroidOf P hlen MAX_ITERS _ (0, 0) hinit
  exact hinv.2.2.2.1

set_option maxHeartbeats 2000000 in
set_option maxRecDepth 100000 in
theorem find_paths_monotone_witness :
    (∀ e ∈ bowG.edges, 0 ≤ e.2.2.length) ∧
    List.Chain' costLE
      ((find_paths_turns_dist bowG bowCo 0 bowP).routes.map routeCost) :=
  ⟨by decide, find_paths_monotone bowG bowCo 0 bowP (by decide)⟩

/-- **C3.** Every route yielded by the enumerator satisfies the
acceptance postcondition `RoutePost`: popped at `dist ≥
min_path_length` with its node's bit already in the visited mask
(`path.headI` is the popped node), `loop_dist ≥ min_loop_length`,
`total_dist = 2·dist − loop_dist` (that is, `2·L.dist + loop_dist` for
the loop start `L`), `loop_ratio = loop_dist / total_dist ≥
loop_ratio_floor` — and the visited masks of the yielded routes are
pairwise distinct. -/
theorem find_paths_routes_post (G : MGraph) (centroidOf : List ℕ → Option (ℚ × ℚ))
    (start_node : ℕ) (P : SearchParams) :
    (∀ r ∈ (find_paths_turns_dist G centroidOf start_node P).routes, RoutePost P r) ∧
    ((find_paths_turns_dist G centroidOf start_node P).routes.map
        Route.visited_mask).Nodup := by
  have h := find_paths_yield_inv G centroidOf start_node P
  exact ⟨h.1, h.2.1⟩

instance : Inhabited Route :=
  ⟨{ turns := 0, dist := 0, visited_mask := 0, loop_ratio := 0, loop_dist := 0,
     total_dist := 0, path := [], centroid := none }⟩

set_option maxHeartbeats 2000000 in
set_option maxRecDepth 100000 in
theorem find_paths_routes_post_witness :
    RoutePost bowP ((find_paths_turns_dist bowG bowCo 0 bowP).routes.headI) :=
  (find_paths_routes_post bowG bowCo 0 bowP).1 _ (by decide)

/-- **C6.** In centroid deduplication mode, every two yielded routes
that both carry a computed centroid lie at least `min_dist_m` apart in
the filter's degree approximation (Euclidean degrees scaled by
111139 m/°; stated in the squared form the filter computes). -/
theorem find_paths_centroid_far (G : MGraph) (centroidOf : List ℕ → Option (ℚ × ℚ))
    (start_node : ℕ) (P : SearchParams)
    (hded : P.deduplication = "centroid") :
    List.Pairwise (CentroidFar P.min_dist_m)
      (find_paths_turns_dist G centroidOf start_node P).routes :=
  (find_paths_yield_inv G centroidOf start_node P).2.2.2.1

theorem find_paths_centroid_far_witness :
    bowP.deduplication = "centroid" ∧
    List.Pairwise (CentroidFar bowP.min_dist_m)
      (find_paths_turns_dist bowG bowCo 0 bowP).routes :=
  ⟨rfl, find_paths_centroid_far bowG bowCo 0 bowP rfl⟩

/-- **C10.** In centroid mode, a candidate that survives the loop
filters but whose centroid cannot be computed (`_calculate_path_centroid`
returns `None`) passes the diversity filter unconditionally and is
yielded; the yield records its mask but appends nothing to
`existing_centroids`, so it never constrains later routes. -/
theorem candidate_without_centroid_yields (G : MGraph)
    (co : List ℕ → Option (ℚ × ℚ)) (P : SearchParams) (turns : ℕ) (dist : ℚ)
    (curr : PathNode) (mask : ℕ) (masks : List ℕ) (cents : List (ℚ × ℚ))
    (seg : List ℕ) (L : PathNode)
    (hd : P.deduplication = "centroid")
    (hts : curr.traverse_to curr.id = (seg, some L))
    (hseg : seg ≠ [])
    (hld : ¬ (dist - L.dist < P.min_loop_length))
    (hlr : ¬ ((dist - L.dist) / (2 * L.dist + (dist - L.dist)) < P.loop_ratio_floor))
    (hmask : mask ∉ masks)
    (hco : co (seg ++ L.traverse) = none)
    (hgeo : path_to_geojson_isSome G (seg ++ L.traverse) = true) :
    ∃ r, handleCandidate G co P turns dist curr mask masks cents = some r ∧
      r.centroid = none ∧
      ∀ s : SearchState, (applyYield s mask r).existing_centroids =
          s.existing_centroids ∧
        (applyYield s mask r).routes = s.routes ++ [r] := by
  unfold handleCandidate
  rw [hts]
  cases seg with
  | nil => exact absurd rfl hseg
  | cons a tail =>
      dsimp only
      rw [if_neg hld, if_neg hlr, if_neg hmask]
      rw [if_pos hd, hco]
      have h1 : _is_centroid_too_close none cents P.min_dist_m = false := rfl
      rw [h1, Bool.and_false]
      rw [if_neg (show ¬((false : Bool) = true) by decide)]
      have h2 : decide (P.deduplication = "jaccard") = false :=
        decide_eq_false (by rw [hd]; simp)
      rw [h2, Bool.false_and]
      rw [if_neg (show ¬((false : Bool) = true) by decide)]
      rw [if_pos hgeo]
      refine ⟨_, rfl, rfl, fun s => ⟨?_, rfl⟩⟩
      simp [applyYield]

theorem candidate_without_centroid_yields_witness :
    ∃ r, handleCandidate bowG (fun _ => none) bowP 2 3
        (.cons 0 (.cons 2 (.cons 1 (.root 0 0) 1) 2) 3) 7 [] [] = some r ∧
      r.centroid = none ∧
      ∀ s : SearchState, (applyYield s 7 r).existing_centroids =
          s.existing_centroids ∧
        (applyYield s 7 r).routes = s.routes ++ [r] :=
  candidate_without_centroid_yields bowG (fun _ => none) bowP 2 3
    (.cons 0 (.cons 2 (.cons 1 (.root 0 0) 1) 2) 3) 7 [] [] [0, 1, 2, 0] (.root 0 0)
    rfl (by decide) (by decide) (by decide) (by decide) (by decide) rfl (by decide)

/-! ## Degree-2 merge (`graph_manager._remove_node_and_merge`) -/

/-- `G.remove_node(n)`: drop the node and all incident edges. -/
def removeNode (G : MGraph) (n : ℕ) : MGraph :=
  { nodes := G.nodes.filter (fun nd => nd.1 ≠ n),
    edges := G.edges.filter (fun e => e.1 ≠ n ∧ e.2.1 ≠ n) }

/-- `G.add_edge(u, v, **attr)`: a new parallel edge appended with the
next key. -/
def addEdge (G : MGraph) (u v : ℕ) (attr : EdgeAttr) : MGraph :=
  { G with edges := G.edges ++ [(u, v, attr)] }

/-- `(G.nodes[n]['x'], G.nodes[n]['y'])` (junk `(0,0)` for a missing
node, which the source would raise on). -/
def nodeXY (G : MGraph) (n : ℕ) : ℚ × ℚ :=
  match G.nodes.find? (fun nd => nd.1 == n) with
  | some nd => nd.2
  | none => (0, 0)

/-- The geometry splice of `_remove_node_and_merge`: orient both
polylines so that `n` is the shared interior vertex, then concatenate
dropping the duplicated endpoint (`coords1[:-1] + coords2`).  The list
defaults on `headI`/`getLastD` model Python indexing on the ≥ 2-point
LineStrings. -/
def merge_geometry (G : MGraph) (u n v : ℕ) (attr_u attr_v : EdgeAttr) :
    List (ℚ × ℚ) :=
  let geo1 := match attr_u.geometry with
    | some g => g
    | none => [nodeXY G u, nodeXY G n]
  let geo2 := match attr_v.geometry with
    | some g => g
    | none => [nodeXY G n, nodeXY G v]
  let start1 := geo1.headI
  let end1 := geo1.getLastD (0, 0)
  let start2 := geo2.headI
  let end2 := geo2.getLastD (0, 0)
  let oriented : List (ℚ × ℚ) × List (ℚ × ℚ) :=
    if start1 = start2 then (geo1.reverse, geo2)
    else if start1 = end2 then (geo1.reverse, geo2.reverse)
    else if end1 = end2 then (geo1, geo2.reverse)
    else (geo1, geo2)
  oriented.1.dropLast ++ oriented.2

/-- The merged attributes: `attr_u.copy()` with the spliced geometry
and the summed length. -/
def mergedAttr (G : MGraph) (u n v : ℕ) (attr_u attr_v : EdgeAttr) : EdgeAttr :=
  { attr_u with
    geometry := some (merge_geometry G u n v attr_u attr_v),
    length := attr_u.length + attr_v.length }

/-- `_remove_node_and_merge`: splice `u→n` and `n→v` into `u↔v`,
inserting the merged attributes in *both* directions; on missing edge
data the node is dropped without splicing and `False` returned. -/
def _remove_node_and_merge (G : MGraph) (u n v : ℕ) : MGraph × Bool :=
  match adjData G u n with
  | none => (removeNode G n, false)
  | some attr_u =>
    match adjData G n v with
    | none => (removeNode G n, false)
    | some attr_v =>
      let new_attr := mergedAttr G u n v attr_u attr_v
      (addEdge (addEdge (removeNode G n) u v new_attr) v u new_attr, true)

def mergeAttrA : EdgeAttr :=
  { length := 1, name := .null, geometry := some [(0, 0), (1, 0)] }

def mergeAttrB : EdgeAttr :=
  { length := 2, name := .null, geometry := some [(1, 0), (2, 1), (3, 0)] }

def mergeG : MGraph :=
  { nodes := [(0, 0, 0), (1, 1, 0), (2, 3, 0)],
    edges := [(0, 1, mergeAttrA), (1, 2, mergeAttrB)] }

/-- **C5 counterexample.** A successful degree-2 merge inserts the
*same* merged attributes in both directions: the mirror edge `(v,u)`
carries the forward polyline `[(0,0),(1,0),(2,1),(3,0)]` unchanged,
which is not its own reversal — refuting the claim that the mirror
carries the reversed geometry. -/
theorem merge_mirror_not_reversed :
    (_remove_node_and_merge mergeG 0 1 2).2 = true ∧
    (adjData (_remove_node_and_merge mergeG 0 1 2).1 0 2).map EdgeAttr.geometry
      = some (some [(0, 0), (1, 0), (2, 1), (3, 0)]) ∧
    (adjData (_remove_node_and_merge mergeG 0 1 2).1 2 0).map EdgeAttr.geometry
      = some (some [(0, 0), (1, 0), (2, 1), (3, 0)]) ∧
    ([((0 : ℚ), (0 : ℚ)), (1, 0), (2, 1), (3, 0)]).reverse
      ≠ [((0 : ℚ), (0 : ℚ)), (1, 0), (2, 1), (3, 0)] := by
  decide

/-- **C5 (amended).** A successful degree-2 merge appends the directed
edge `(u,v)` and its mirror `(v,u)` with *identical* attributes: the
same summed length, the same street name, and the same (unreversed)
merged geometry polyline. -/
theorem _remove_node_and_merge_spec (G : MGraph) (u n v : ℕ) (G' : MGraph)
    (h : _remove_node_and_merge G u n v = (G', true)) :
    ∃ E A au av, adjData G u n = some au ∧ adjData G n v = some av ∧
      A.length = au.length + av.length ∧ A.name = au.name ∧
      G'.edges = E ++ [(u, v, A), (v, u, A)] := by
  unfold _remove_node_and_merge at h
  cases hun : adjData G u n with
  | none => rw [hun] at h; simp at h
  | some au =>
      rw [hun] at h
      dsimp only at h
      cases hnv : adjData G n v with
      | none => rw [hnv] at h; simp at h
      | some av =>
          rw [hnv] at h
          dsimp only at h
          simp only [Prod.mk.injEq] at h
          obtain ⟨hG, _⟩ := h
          subst hG
          refine ⟨(removeNode G n).edges, mergedAttr G u n v au av, au, av,
            rfl, rfl, rfl, rfl, ?_⟩
          simp [addEdge]

theorem _remove_node_and_merge_spec_witness :
    ∃ E A au av, adjData mergeG 0 1 = some au ∧ adjData mergeG 1 2 = some av ∧
      A.length = au.length + av.length ∧ A.name = au.name ∧
      ((_remove_node_and_merge mergeG 0 1 2).1).edges = E ++ [(0, 2, A), (2, 0, A)] :=
  _remove_node_and_merge_spec mergeG 0 1 2 (_remove_node_and_merge mergeG 0 1 2).1
    (by decide)

/-! ## Biconnected pruning (`graph_manager._prune_graph_biconnected`)

`networkx`'s `biconnected_components` and `articulation_points` are
third-party library algorithms, not repository code; they enter the
embedding as oracle inputs `components` / `art_points`.  The block-cut
tree nodes are `Sum.inl blockIndex` (the `"B{i}"` strings) and
`Sum.inr articulationPoint`.  The DFS/BFS stacks carry explicit fuel
bounded by the number of tree nodes: each tree node is pushed at most
once (the `parent` map prevents re-pushing), so the fuel is never
exhausted. -/

/-- Membership in a list of block-cut-tree nodes is decidable (the
generic instance gets stuck on `Sum`). -/
instance bctMemDec (a : ℕ ⊕ ℕ) (l : List (ℕ ⊕ ℕ)) : Decidable (a ∈ l) :=
  decidable_of_iff (∃ x ∈ l, x = a) (by simp)

/-- `G.to_undirected().neighbors(u)`. -/
def undirNeighbors (G : MGraph) (u : ℕ) : List ℕ :=
  (G.edges.filterMap (fun e =>
    if e.1 = u then some e.2.1 else if e.2.1 = u then some e.1 else none)).dedup

/-- The `length` values of the undirected parallel edges between `u`
and `v` (both directions pooled; `to_undirected` keeps one value per
key, so the minimum below coincides whenever mirror edges carry equal
lengths, as prepared graphs do). -/
def undirEdgeLengths (G : MGraph) (u v : ℕ) : List ℚ :=
  G.edges.filterMap (fun e =>
    if (e.1 = u ∧ e.2.1 = v) ∨ (e.1 = v ∧ e.2.1 = u)
    then some e.2.2.length else none)

/-- `min(d.get('length', 0) for d in edge_dict.values())`, `0` when
there is no edge. -/
def minUndirLength (G : MGraph) (u v : ℕ) : ℚ :=
  match undirEdgeLengths G u v with
  | [] => 0
  | l :: ls => ls.foldl min l

/-- A component's edge-length weight: sum over unordered in-component
edges (deduplicated via `(min u v, max u v)`) of the minimum parallel
length. -/
def compLength (G : MGraph) (comp : List ℕ) : ℚ :=
  (comp.foldl (fun st u =>
    (undirNeighbors G u).foldl (fun st2 v =>
      if v ∈ comp then
        if (min u v, max u v) ∈ st2.1 then st2
        else ((min u v, max u v) :: st2.1, st2.2 + minUndirLength G u v)
      else st2) st)
    (([], 0) : List (ℕ × ℕ) × ℚ)).2

/-- Block-cut-tree adjacency: block `i` touches exactly the
articulation points inside component `i`. -/
def bctAdj (components : List (List ℕ)) (art_points : List ℕ) :
    ℕ ⊕ ℕ → List (ℕ ⊕ ℕ)
  | Sum.inl i => (art_points.filter (fun a => a ∈ components.getD i [])).map Sum.inr
  | Sum.inr a =>
      if a ∈ art_points then
        ((List.range components.length).filter
          (fun i => a ∈ components.getD i [])).map Sum.inl
      else []

/-- Iterative DFS of `mark_needed_iterative`: discovery `order` and
`parent` map. -/
def bctDfs (adj : ℕ ⊕ ℕ → List (ℕ ⊕ ℕ)) :
    ℕ → List (ℕ ⊕ ℕ) → List ((ℕ ⊕ ℕ) × Option (ℕ ⊕ ℕ)) → List (ℕ ⊕ ℕ) →
    List (ℕ ⊕ ℕ) × List ((ℕ ⊕ ℕ) × Option (ℕ ⊕ ℕ))
  | 0, _, parent, order => (order, parent)
  | fuel + 1, stack, parent, order =>
    match stack with
    | [] => (order, parent)
    | node :: stack2 =>
        let st := (adj node).foldl
          (fun (acc : List (ℕ ⊕ ℕ) × List ((ℕ ⊕ ℕ) × Option (ℕ ⊕ ℕ))) nb =>
            if (acc.2.find? (fun pr => pr.1 == nb)).isSome then acc
            else (nb :: acc.1, acc.2 ++ [(nb, some node)]))
          (stack2, parent)
        bctDfs adj fuel st.1 st.2 (order ++ [node])

def parentOf (parent : List ((ℕ ⊕ ℕ) × Option (ℕ ⊕ ℕ))) (x : ℕ ⊕ ℕ) :
    Option (ℕ ⊕ ℕ) :=
  match parent.find? (fun pr => pr.1 == x) with
  | some pr => pr.2
  | none => none

/-- `needed.get(node, False)`. -/
def neededGet (l : List ((ℕ ⊕ ℕ) × Bool)) (x : ℕ ⊕ ℕ) : Bool :=
  match l.find? (fun pr => pr.1 == x) with
  | some pr => pr.2
  | none => false

/-- `mark_needed_iterative`: reverse post-order propagation of the
`keep` bit from large blocks upward; returns the kept tree nodes. -/
def mark_needed_iterative (adj : ℕ ⊕ ℕ → List (ℕ ⊕ ℕ))
    (large_set : List (ℕ ⊕ ℕ)) (root : ℕ ⊕ ℕ) (fuel : ℕ) : List (ℕ ⊕ ℕ) :=
  let dfs := bctDfs adj fuel [root] [(root, none)] []
  ((dfs.1.reverse).foldl
    (fun (st : List ((ℕ ⊕ ℕ) × Bool) × List (ℕ ⊕ ℕ)) (node : ℕ ⊕ ℕ) =>
      let needed := decide (node ∈ large_set) ||
        (adj node).any (fun nb =>
          (parentOf dfs.2 nb == some node) && neededGet st.1 nb)
      ((node, needed) :: st.1, if needed then st.2 ++ [node] else st.2))
    (([], []) : List ((ℕ ⊕ ℕ) × Bool) × List (ℕ ⊕ ℕ))).2

/-- `nx.node_connected_component` of the block-cut tree (BFS with
fuel). -/
def bctReachable (adj : ℕ ⊕ ℕ → List (ℕ ⊕ ℕ)) :
    ℕ → List (ℕ ⊕ ℕ) → List (ℕ ⊕ ℕ) → List (ℕ ⊕ ℕ)
  | 0, _, visited => visited
  | fuel + 1, frontier, visited =>
    match frontier with
    | [] => visited
    | x :: fr =>
        if (x : ℕ ⊕ ℕ) ∈ visited then bctReachable adj fuel fr visited
        else bctReachable adj fuel (fr ++ adj x) (visited ++ [x])

/-- `_prune_graph_biconnected`: measure components, find the large
blocks (≥ 3 nodes and weight ≥ `min_component_length`); if none exist,
warn (the returned flag) and leave the graph untouched; otherwise keep
exactly the union of kept blocks and kept articulation vertices and
drop resulting isolates. -/
def _prune_graph_biconnected (G : MGraph) (components : List (List ℕ))
    (art_points : List ℕ) (min_component_length : ℚ) : MGraph × Bool :=
  let comp_lengths := components.map (compLength G)
  let large_blocks := (List.range components.length).filter (fun i =>
    3 ≤ (components.getD i []).length ∧ min_component_length ≤ comp_lengths.getD i 0)
  if large_blocks.isEmpty then (G, true)
  else
    let adj := bctAdj components art_points
    let large_set := large_blocks.map Sum.inl
    let nnodes := components.length + art_points.length + 1
    let keep := (large_blocks.foldl
      (fun (st : List (ℕ ⊕ ℕ) × List (ℕ ⊕ ℕ)) (i : ℕ) =>
        if (Sum.inl i : ℕ ⊕ ℕ) ∈ st.1 then st
        else
          (st.1 ++ bctReachable adj nnodes [Sum.inl i] [],
           st.2 ++ mark_needed_iterative adj large_set (Sum.inl i) nnodes))
      (([], []) : List (ℕ ⊕ ℕ) × List (ℕ ⊕ ℕ))).2
    let valid_nodes := keep.foldl (fun acc kn =>
      match kn with
      | Sum.inl i => acc ++ components.getD i []
      | Sum.inr a => acc ++ [a]) ([] : List ℕ)
    let G1 : MGraph :=
      { nodes := G.nodes.filter (fun nd => nd.1 ∈ valid_nodes),
        edges := G.edges.filter (fun e => e.1 ∈ valid_nodes ∧ e.2.1 ∈ valid_nodes) }
    ({ nodes := G1.nodes.filter (fun nd =>
         G1.edges.any (fun e => e.1 = nd.1 ∨ e.2.1 = nd.1)),
       edges := G1.edges }, false)

/-- **C7.** When no biconnected component is large — none has both
≥ 3 nodes and edge-length weight ≥ `min_component_length` —
`_prune_graph_biconnected` emits its warning (the `true` flag) and
returns the graph unchanged: no node or edge is removed. -/
theorem prune_no_large_skips (G : MGraph) (components : List (List ℕ))
    (art_points : List ℕ) (min_component_length : ℚ)
    (h : ∀ i < components.length,
      ¬ (3 ≤ (components.getD i []).length ∧
         min_component_length ≤ (components.map (compLength G)).getD i 0)) :
    _prune_graph_biconnected G components art_points min_component_length
      = (G, true) := by
  unfold _prune_graph_biconnected
  have hl : (List.range components.length).filter (fun i =>
      decide (3 ≤ (components.getD i []).length ∧
        min_component_length ≤ (components.map (compLength G)).getD i 0)) = [] := by
    rw [List.filter_eq_nil]
    intro i hi
    rw [decide_eq_true_eq]
    exact h i (List.mem_range.mp hi)
  simp only [hl]
  rfl

def pruneAttr : EdgeAttr := { length := 1000, name := .null, geometry := none }

def pruneG : MGraph :=
  { nodes := [(0, 0, 0), (1, 1, 0)],
    edges := [(0, 1, pruneAttr), (1, 0, pruneAttr)] }

theorem prune_no_large_skips_witness :
    _prune_graph_biconnected pruneG [[0, 1]] [] 3000 = (pruneG, true) :=
  prune_no_large_skips pruneG [[0, 1]] [] 3000 (by decide)
